import Mathlib

/-!
Verification of the fio libblkio ioengine (src/engines/libblkio.c).

The engine is embedded shallowly: every backend primitive (libblkio call,
read on the completion fd, fcntl) is modelled by an environment that fixes
its result, and each engine function is a pure Lean function of the options,
the environment and its explicit state, additionally returning the trace of
backend calls it makes.  Strings are modelled as lists of characters, since
the C code works on mutable char buffers.
-/

set_option autoImplicit false

/-- Character strings of the C code, as plain lists of characters. -/
abbrev CStr := List Char

/-- Whitespace in the sense of isspace(3), which the fio helpers
strip_blank_front and strip_blank_end use. -/
def is_space (c : Char) : Bool :=
  c = ' ' || c = '\t' || c = '\n' || c = '\x0b' || c = '\x0c' || c = '\r'

/-- Embedding of the fio helper strip_blank_front: drop leading whitespace. -/
def strip_blank_front (s : CStr) : CStr := s.dropWhile is_space

/-- Embedding of the fio helper strip_blank_end: drop trailing whitespace. -/
def strip_blank_end (s : CStr) : CStr := (s.reverse.dropWhile is_space).reverse

/-- Strip whitespace from both ends, as the parser does to names and values. -/
def stripBlank (s : CStr) : CStr := strip_blank_end (strip_blank_front s)

/-- Split a string at its first occurrence of the character given, mirroring
strchr followed by writing a NUL terminator at the match: the result is the
part strictly before the match and the part strictly after it, or none when
the character does not occur. -/
def splitFirst (c : Char) : CStr → Option (CStr × CStr)
  | [] => none
  | d :: s =>
    if d = c then some ([], s)
    else
      match splitFirst c s with
      | none => none
      | some (a, b) => some (d :: a, b)

/-- Modelled from the spec: get_next_str is fio-core code that is not under
src/; it tokenizes the option string into a sequence of entries (the spec
describes the string as "a sequence of whitespace-trimmed name=value pairs"
without fixing the separator syntax).  The input of the parser is therefore
modelled as the list of entries that get_next_str yields, and the strdup of
the caller string is reflected by the parser being a pure function of that
list. -/
abbrev PropEntries := List CStr

/-- Embedding of fio_blkio_set_props_from_str.  The environment function
set_str gives the result of each blkio_set_str call.  The result is the
success flag (true mirrors a 0 return) together with the list of
(name, value) pairs actually passed to blkio_set_str, in call order. -/
def fio_blkio_set_props_from_str (set_str : CStr → CStr → Bool) :
    PropEntries → Bool × List (CStr × CStr)
  | [] => (true, [])
  | entry :: rest =>
    match splitFirst '=' entry with
    | none => (false, [])
    | some (rawName, rawValue) =>
      let name := stripBlank rawName
      if name = [] then (false, [])
      else
        let value := stripBlank rawValue
        if set_str name value then
          let r := fio_blkio_set_props_from_str set_str rest
          (r.1, (name, value) :: r.2)
        else (false, [(name, value)])

/-- The trimmed (name, value) pair an entry denotes, when it is well formed. -/
def entryPair (e : CStr) : Option (CStr × CStr) :=
  (splitFirst '=' e).map fun p => (stripBlank p.1, stripBlank p.2)

/-- An entry is well formed when it contains an '=' and its name part is
nonempty after trimming. -/
def entryWellFormed (e : CStr) : Bool :=
  match splitFirst '=' e with
  | none => false
  | some (a, _) => decide (stripBlank a ≠ [])

theorem splitFirst_some {c : Char} {s a b : CStr}
    (h : splitFirst c s = some (a, b)) : s = a ++ c :: b ∧ c ∉ a := by
  induction s generalizing a b with
  | nil => simp [splitFirst] at h
  | cons d s ih =>
    by_cases hd : d = c
    · simp [splitFirst, hd] at h
      obtain ⟨ha, hb⟩ := h
      subst ha hb
      simp [hd]
    · simp only [splitFirst, if_neg hd] at h
      cases hsp : splitFirst c s with
      | none => rw [hsp] at h; simp at h
      | some p =>
        obtain ⟨a0, b0⟩ := p
        rw [hsp] at h
        simp at h
        obtain ⟨ha, hb⟩ := h
        subst hb
        obtain ⟨hs, hc⟩ := ih hsp
        subst ha
        constructor
        · simp [hs]
        · simp only [List.mem_cons, not_or]
          exact ⟨fun hdc => hd hdc.symm, hc⟩

theorem splitFirst_none {c : Char} {s : CStr}
    (h : splitFirst c s = none) : c ∉ s := by
  induction s with
  | nil => simp
  | cons d s ih =>
    by_cases hd : d = c
    · simp [splitFirst, hd] at h
    · simp only [splitFirst, if_neg hd] at h
      cases hsp : splitFirst c s with
      | none =>
        simp only [List.mem_cons, not_or]
        exact ⟨fun hdc => hd hdc.symm, ih hsp⟩
      | some p => rw [hsp] at h; simp at h

theorem set_props_all_ok (set_str : CStr → CStr → Bool)
    (hset : ∀ n v, set_str n v = true) :
    ∀ entries : PropEntries, (∀ e ∈ entries, entryWellFormed e = true) →
      fio_blkio_set_props_from_str set_str entries =
        (true, entries.map fun e => (entryPair e).getD ([], [])) := by
  intro entries
  induction entries with
  | nil => intro _; rfl
  | cons e rest ih =>
    intro hwf
    have hwfe : entryWellFormed e = true := hwf e (by simp)
    unfold entryWellFormed at hwfe
    cases hsp : splitFirst '=' e with
    | none => rw [hsp] at hwfe; simp at hwfe
    | some p =>
      obtain ⟨a, b⟩ := p
      rw [hsp] at hwfe
      simp at hwfe
      have hrest := ih (fun x hx => hwf x (by simp [hx]))
      simp only [fio_blkio_set_props_from_str, hsp, if_neg hwfe,
        hset (stripBlank a) (stripBlank b), if_pos, hrest, List.map_cons]
      simp [entryPair, hsp]

theorem set_props_aborts_at_bad_entry (set_str : CStr → CStr → Bool)
    (hset : ∀ n v, set_str n v = true) :
    ∀ (good : PropEntries) (bad : CStr) (rest : PropEntries),
      (∀ e ∈ good, entryWellFormed e = true) →
      entryWellFormed bad = false →
      fio_blkio_set_props_from_str set_str (good ++ bad :: rest) =
        (false, good.map fun e => (entryPair e).getD ([], [])) := by
  intro good bad rest
  induction good with
  | nil =>
    intro _ hbad
    unfold entryWellFormed at hbad
    cases hsp : splitFirst '=' bad with
    | none => simp [fio_blkio_set_props_from_str, hsp]
    | some p =>
      obtain ⟨a, b⟩ := p
      rw [hsp] at hbad
      simp at hbad
      simp [fio_blkio_set_props_from_str, hsp, hbad]
  | cons e good ih =>
    intro hwf hbad
    have hwfe : entryWellFormed e = true := hwf e (by simp)
    unfold entryWellFormed at hwfe
    cases hsp : splitFirst '=' e with
    | none => rw [hsp] at hwfe; simp at hwfe
    | some p =>
      obtain ⟨a, b⟩ := p
      rw [hsp] at hwfe
      simp at hwfe
      have hrest := ih (fun x hx => hwf x (by simp [hx])) hbad
      simp only [List.cons_append, fio_blkio_set_props_from_str, hsp,
        if_neg hwfe, hset (stripBlank a) (stripBlank b), if_pos, hrest,
        List.map_cons]
      simp [entryPair, hsp, hrest]

/-- C6: property-string parsing operates on a private copy (here: it is a
pure function of the entry sequence, so the caller data is unchanged),
splits each entry on its first '=', strips whitespace from name and value,
and applies the pairs in order; an entry missing '=' or with an empty
trimmed name aborts the parse with an error and no later entry is applied. -/
theorem prop_parse_correct (set_str : CStr → CStr → Bool)
    (hset : ∀ n v, set_str n v = true) :
    (∀ s a b, splitFirst '=' s = some (a, b) → s = a ++ '=' :: b ∧ '=' ∉ a)
  ∧ (∀ s, splitFirst '=' s = none → '=' ∉ s)
  ∧ (∀ entries : PropEntries, (∀ e ∈ entries, entryWellFormed e = true) →
      fio_blkio_set_props_from_str set_str entries =
        (true, entries.map fun e => (entryPair e).getD ([], [])))
  ∧ (∀ (good : PropEntries) (bad : CStr) (rest : PropEntries),
      (∀ e ∈ good, entryWellFormed e = true) →
      entryWellFormed bad = false →
      fio_blkio_set_props_from_str set_str (good ++ bad :: rest) =
        (false, good.map fun e => (entryPair e).getD ([], []))) := by
  refine ⟨fun s a b h => splitFirst_some h, fun s h => splitFirst_none h,
    set_props_all_ok set_str hset, set_props_aborts_at_bad_entry set_str hset⟩

/-- Witness for C6 at a concrete parser run: with an always-succeeding
backend, the entries " a = 1" and "b=2" parse to the trimmed pairs, and
inserting the malformed entry "oops" aborts the parse after the first pair. -/
theorem prop_parse_correct_witness :
    fio_blkio_set_props_from_str (fun _ _ => true)
        [[' ', 'a', ' ', '=', ' ', '1'], ['b', '=', '2']] =
      (true, [[' ', 'a', ' ', '=', ' ', '1'],
              ['b', '=', '2']].map (fun e => (entryPair e).getD ([], [])))
  ∧ fio_blkio_set_props_from_str (fun _ _ => true)
        [[' ', 'a', ' ', '=', ' ', '1'], ['o', 'o', 'p', 's'], ['b', '=', '2']] =
      (false, [[' ', 'a', ' ', '=', ' ', '1']].map
        (fun e => (entryPair e).getD ([], []))) := by
  have h := prop_parse_correct (fun _ _ => true) (fun _ _ => rfl)
  refine ⟨?_, ?_⟩
  · have h3 := h.2.2.1 [[' ', 'a', ' ', '=', ' ', '1'], ['b', '=', '2']]
      (by decide)
    simpa using h3
  · have h4 := h.2.2.2 [[' ', 'a', ' ', '=', ' ', '1']] ['o', 'o', 'p', 's']
      [['b', '=', '2']] (by decide) (by decide)
    simpa using h4

/-- The three completion wait modes of the engine. -/
inductive WaitMode where
  | block
  | eventfd
  | loop
deriving DecidableEq, Repr

/-- Embedding of struct fio_blkio_options (the option fields the engine
reads; the raw property strings appear as their entry sequences, none
mirroring a NULL pointer). -/
structure FioBlkioOptions where
  driver : Option String
  pre_connect_props : Option PropEntries
  pre_start_props : Option PropEntries
  hipri : Bool
  vectored : Bool
  write_zeroes_on_trim : Bool
  wait_mode : WaitMode
  force_enable_completion_eventfd : Bool

/-- The errno value ENOENT, whose negation blkio_set_bool returns when the
driver lacks the requested property. -/
def ENOENT : Int := 2

/-- Backend environment for device creation and connection: the result each
libblkio call would return. -/
structure ConnEnv where
  createOk : Bool
  setDirectRet : Int
  setReadonlyRet : Int
  set_str : CStr → CStr → Bool
  connectOk : Bool

/-- Trace entries for the libblkio calls made outside a queue. -/
inductive CCall where
  | create (ok : Bool)
  | setDirect (ret : Int)
  | setReadonly (ret : Int)
  | setProp (name value : CStr)
  | connect (ok : Bool)
  | getCapacity
  | destroy
  | setNumQueues (n : Nat)
  | setNumPollQueues (n : Nat)
  | start (ok : Bool)
  | getQueue (poll : Bool)
  | setCompletionFdEnabled
  | fcntlGet (ok : Bool)
  | fcntlSet (ok : Bool)
deriving DecidableEq, Repr

/-- The trace of blkio_set_str calls a property application makes. -/
def propTrace (ps : List (CStr × CStr)) : List CCall :=
  ps.map fun p => CCall.setProp p.1 p.2

/-- Property application as create-and-connect invokes it: a NULL option
string is skipped with success and no backend call. -/
def set_props_opt (set_str : CStr → CStr → Bool) :
    Option PropEntries → Bool × List (CStr × CStr)
  | none => (true, [])
  | some entries => fio_blkio_set_props_from_str set_str entries

/-- Embedding of fio_blkio_create_and_connect.  Returns the C return value
(0 success, 1 failure), the trace of backend calls, and whether a live
blkio instance was handed back to the caller. -/
def fio_blkio_create_and_connect (o : FioBlkioOptions) (e : ConnEnv) :
    Int × List CCall × Bool :=
  match o.driver with
  | none => (1, [], false)
  | some _ =>
    if e.createOk = false then (1, [CCall.create false], false)
    else if e.setDirectRet ≠ 0 ∧ e.setDirectRet ≠ -ENOENT then
      (1, [CCall.create true, CCall.setDirect e.setDirectRet, CCall.destroy],
       false)
    else if e.setReadonlyRet ≠ 0 then
      (1, [CCall.create true, CCall.setDirect e.setDirectRet,
           CCall.setReadonly e.setReadonlyRet, CCall.destroy], false)
    else if (set_props_opt e.set_str o.pre_connect_props).1 = false then
      (1, [CCall.create true, CCall.setDirect e.setDirectRet,
           CCall.setReadonly e.setReadonlyRet] ++
          propTrace (set_props_opt e.set_str o.pre_connect_props).2 ++
          [CCall.destroy], false)
    else if e.connectOk = false then
      (1, [CCall.create true, CCall.setDirect e.setDirectRet,
           CCall.setReadonly e.setReadonlyRet] ++
          propTrace (set_props_opt e.set_str o.pre_connect_props).2 ++
          [CCall.connect false, CCall.destroy], false)
    else if (set_props_opt e.set_str o.pre_start_props).1 = false then
      (1, [CCall.create true, CCall.setDirect e.setDirectRet,
           CCall.setReadonly e.setReadonlyRet] ++
          propTrace (set_props_opt e.set_str o.pre_connect_props).2 ++
          [CCall.connect true] ++
          propTrace (set_props_opt e.set_str o.pre_start_props).2 ++
          [CCall.destroy], false)
    else
      (0, [CCall.create true, CCall.setDirect e.setDirectRet,
           CCall.setReadonly e.setReadonlyRet] ++
          propTrace (set_props_opt e.set_str o.pre_connect_props).2 ++
          [CCall.connect true] ++
          propTrace (set_props_opt e.set_str o.pre_start_props).2, true)

/-- Number of successful blkio_create calls in a trace. -/
def countCreates (tr : List CCall) : Nat :=
  tr.countP fun c => match c with | CCall.create true => true | _ => false

/-- Number of blkio_destroy calls in a trace. -/
def countDestroys (tr : List CCall) : Nat :=
  tr.countP fun c => match c with | CCall.destroy => true | _ => false

theorem countCreates_propTrace (ps : List (CStr × CStr)) :
    countCreates (propTrace ps) = 0 := by
  simp only [countCreates, propTrace, List.countP_eq_zero]
  intro c hc
  simp only [List.mem_map] at hc
  obtain ⟨p, _, hp⟩ := hc
  subst hp
  simp

theorem countDestroys_propTrace (ps : List (CStr × CStr)) :
    countDestroys (propTrace ps) = 0 := by
  simp only [countDestroys, propTrace, List.countP_eq_zero]
  intro c hc
  simp only [List.mem_map] at hc
  obtain ⟨p, _, hp⟩ := hc
  subst hp
  simp

theorem countCreates_append (l1 l2 : List CCall) :
    countCreates (l1 ++ l2) = countCreates l1 + countCreates l2 :=
  List.countP_append _ _ _

theorem countDestroys_append (l1 l2 : List CCall) :
    countDestroys (l1 ++ l2) = countDestroys l1 + countDestroys l2 :=
  List.countP_append _ _ _

/-- C1: on every failure path of device creation-and-connect, the number of
successful blkio_create calls equals the number of blkio_destroy calls (no
backend instance is leaked) and no instance is handed to the caller; on
success no destroy happens and the instance is handed back. -/
theorem create_and_connect_no_leak (o : FioBlkioOptions) (e : ConnEnv) :
    ((fio_blkio_create_and_connect o e).1 ≠ 0 →
        countCreates (fio_blkio_create_and_connect o e).2.1 =
          countDestroys (fio_blkio_create_and_connect o e).2.1
      ∧ (fio_blkio_create_and_connect o e).2.2 = false)
  ∧ ((fio_blkio_create_and_connect o e).1 = 0 →
        countDestroys (fio_blkio_create_and_connect o e).2.1 = 0
      ∧ (fio_blkio_create_and_connect o e).2.2 = true) := by
  unfold fio_blkio_create_and_connect
  split
  · simp [countCreates, countDestroys]
  · split
    · simp [countCreates, countDestroys]
    · split
      · simp [countCreates, countDestroys]
      · split
        · simp [countCreates, countDestroys]
        · split
          · simp only [countCreates_append, countDestroys_append,
              countCreates_propTrace, countDestroys_propTrace]
            simp [countCreates, countDestroys, List.countP_cons]
          · split
            · simp only [countCreates_append, countDestroys_append,
                countCreates_propTrace, countDestroys_propTrace]
              simp [countCreates, countDestroys, List.countP_cons]
            · split
              · simp only [countCreates_append, countDestroys_append,
                  countCreates_propTrace, countDestroys_propTrace]
                simp [countCreates, countDestroys, List.countP_cons]
              · simp only [countCreates_append, countDestroys_append,
                  countCreates_propTrace, countDestroys_propTrace]
                simp [countCreates, countDestroys, List.countP_cons]

/-- Witness for C1 at a concrete failing run: the driver is set, creation
succeeds and connecting fails, so creates and destroys balance and no
instance escapes. -/
theorem create_and_connect_no_leak_witness :
    countCreates (fio_blkio_create_and_connect
        (FioBlkioOptions.mk (some "virtio-blk-vhost-user") none none
          false false false WaitMode.block false)
        (ConnEnv.mk true 0 0 (fun _ _ => true) false)).2.1 =
      countDestroys (fio_blkio_create_and_connect
        (FioBlkioOptions.mk (some "virtio-blk-vhost-user") none none
          false false false WaitMode.block false)
        (ConnEnv.mk true 0 0 (fun _ _ => true) false)).2.1
  ∧ (fio_blkio_create_and_connect
        (FioBlkioOptions.mk (some "virtio-blk-vhost-user") none none
          false false false WaitMode.block false)
        (ConnEnv.mk true 0 0 (fun _ _ => true) false)).2.2 = false :=
  (create_and_connect_no_leak _ _).1 (by decide)

/-- C8: a property-not-found failure (-ENOENT) setting the "direct" hint is
tolerated (the sequence proceeds to the mandatory "read-only" flag and can
still succeed), while any other failure setting "direct", and any failure
setting "read-only", aborts device creation with the instance destroyed. -/
theorem direct_enoent_tolerated (o : FioBlkioOptions) (e : ConnEnv)
    (hd : o.driver.isSome = true) (hc : e.createOk = true) :
    (e.setDirectRet = -ENOENT →
        CCall.setReadonly e.setReadonlyRet ∈
          (fio_blkio_create_and_connect o e).2.1)
  ∧ (e.setDirectRet ≠ 0 → e.setDirectRet ≠ -ENOENT →
        (fio_blkio_create_and_connect o e).1 = 1
      ∧ CCall.destroy ∈ (fio_blkio_create_and_connect o e).2.1
      ∧ ∀ r, CCall.setReadonly r ∉ (fio_blkio_create_and_connect o e).2.1)
  ∧ ((e.setDirectRet = 0 ∨ e.setDirectRet = -ENOENT) → e.setReadonlyRet ≠ 0 →
        (fio_blkio_create_and_connect o e).1 = 1
      ∧ CCall.destroy ∈ (fio_blkio_create_and_connect o e).2.1)
  ∧ (e.setDirectRet = -ENOENT → e.setReadonlyRet = 0 →
      o.pre_connect_props = none → e.connectOk = true →
      o.pre_start_props = none →
        (fio_blkio_create_and_connect o e).1 = 0) := by
  obtain ⟨drv, hdrv⟩ := Option.isSome_iff_exists.mp hd
  refine ⟨?_, ?_, ?_, ?_⟩
  · intro h2
    simp only [fio_blkio_create_and_connect, hdrv, hc, h2]
    simp only [Bool.true_eq_false, if_false]
    have : ¬((-ENOENT : Int) ≠ 0 ∧ (-ENOENT : Int) ≠ -ENOENT) := by simp
    rw [if_neg this]
    split
    · simp
    · split
      · simp
      · split
        · simp
        · split
          · simp
          · simp
  · intro h2 h3
    simp only [fio_blkio_create_and_connect, hdrv, hc]
    simp only [Bool.true_eq_false, if_false]
    rw [if_pos ⟨h2, h3⟩]
    simp
  · intro h2 h3
    have hno : ¬(e.setDirectRet ≠ 0 ∧ e.setDirectRet ≠ -ENOENT) := by
      rcases h2 with h | h <;> simp [h]
    simp only [fio_blkio_create_and_connect, hdrv, hc]
    simp only [Bool.true_eq_false, if_false]
    rw [if_neg hno, if_pos h3]
    simp
  · intro h2 h3 h4 h5 h6
    have hno : ¬(e.setDirectRet ≠ 0 ∧ e.setDirectRet ≠ -ENOENT) := by
      simp [h2]
    simp only [fio_blkio_create_and_connect, hdrv, hc, h3, h4, h5, h6]
    simp only [Bool.true_eq_false, if_false]
    rw [if_neg hno]
    simp [set_props_opt]

/-- Witness for C8 at a concrete run: the backend lacks the "direct"
property (-ENOENT) yet creation and connection succeed end to end. -/
theorem direct_enoent_tolerated_witness :
    (fio_blkio_create_and_connect
        (FioBlkioOptions.mk (some "io_uring") none none
          false false false WaitMode.block false)
        (ConnEnv.mk true (-2) 0 (fun _ _ => true) true)).1 = 0 :=
  (direct_enoent_tolerated
      (FioBlkioOptions.mk (some "io_uring") none none
        false false false WaitMode.block false)
      (ConnEnv.mk true (-2) 0 (fun _ _ => true) true)
      (by decide) (by decide)).2.2.2 (by decide) (by decide) rfl (by decide) rfl

/-- Backend environment for fio_blkio_setup: the connection environment plus
the result of the "capacity" query. -/
structure SetupEnv extends ConnEnv where
  capacity : Option Nat

/-- Embedding of fio_blkio_setup.  Returns the C return value, the trace of
backend calls, and the device capacity handed to the file when sizing
succeeded. -/
def fio_blkio_setup (o : FioBlkioOptions) (e : SetupEnv) :
    Int × List CCall × Option Nat :=
  if o.hipri = true ∧ o.wait_mode = WaitMode.eventfd then (1, [], none)
  else if o.hipri = true ∧ o.force_enable_completion_eventfd = true then
    (1, [], none)
  else
    if (fio_blkio_create_and_connect o e.toConnEnv).1 ≠ 0 then
      (1, (fio_blkio_create_and_connect o e.toConnEnv).2.1, none)
    else
      match e.capacity with
      | none =>
        (1, (fio_blkio_create_and_connect o e.toConnEnv).2.1 ++
            [CCall.getCapacity, CCall.destroy], none)
      | some cap =>
        (0, (fio_blkio_create_and_connect o e.toConnEnv).2.1 ++
            [CCall.getCapacity, CCall.destroy], some cap)

/-- C4: combining the poll-queue flag with the eventfd wait policy, or with
forced enabling of the completion eventfd, makes setup fail immediately with
an empty backend-call trace: the error is reported before any backend
instance or other resource is created. -/
theorem setup_rejects_hipri_combos (o : FioBlkioOptions) (e : SetupEnv)
    (hh : o.hipri = true)
    (hw : o.wait_mode = WaitMode.eventfd ∨
          o.force_enable_completion_eventfd = true) :
    fio_blkio_setup o e = (1, [], none) := by
  rcases hw with hw | hw
  · simp [fio_blkio_setup, hh, hw]
  · unfold fio_blkio_setup
    split
    · rfl
    · rw [if_pos ⟨hh, hw⟩]

/-- Witness for C4: with hipri set and the eventfd wait mode selected, setup
fails with no backend call even though the whole environment would succeed. -/
theorem setup_rejects_hipri_combos_witness :
    fio_blkio_setup
        (FioBlkioOptions.mk (some "io_uring") none none
          true false false WaitMode.eventfd false)
        (SetupEnv.mk (ConnEnv.mk true 0 0 (fun _ _ => true) true)
          (some 1048576)) = (1, [], none) :=
  setup_rejects_hipri_combos
    (FioBlkioOptions.mk (some "io_uring") none none
      true false false WaitMode.eventfd false)
    (SetupEnv.mk (ConnEnv.mk true 0 0 (fun _ _ => true) true) (some 1048576))
    rfl (Or.inl rfl)

/-- Backend environment for fio_blkio_init: the connection environment plus
the results of the allocation, queue setup, start and fcntl steps. -/
structure InitEnv extends ConnEnv where
  callocOk : Bool
  setNumQueuesOk : Bool
  setNumPollQueuesOk : Bool
  startOk : Bool
  fcntlGetOk : Bool
  fcntlSetOk : Bool

/-- Embedding of fio_blkio_init.  The second component of the result is the
value of the disable_slat option field after the call (the C code writes
td->o.disable_slat = 1 before doing anything else); the third is the trace
of backend calls.  The slat0 argument is the value the user configured. -/
def fio_blkio_init (o : FioBlkioOptions) (e : InitEnv) (slat0 : Nat) :
    Int × Nat × List CCall :=
  if e.callocOk = false then (1, 1, [])
  else if (fio_blkio_create_and_connect o e.toConnEnv).1 ≠ 0 then
    (1, 1, (fio_blkio_create_and_connect o e.toConnEnv).2.1)
  else if e.setNumQueuesOk = false then
    (1, 1, (fio_blkio_create_and_connect o e.toConnEnv).2.1 ++
        [CCall.setNumQueues (if o.hipri then 0 else 1), CCall.destroy])
  else if e.setNumPollQueuesOk = false then
    (1, 1, (fio_blkio_create_and_connect o e.toConnEnv).2.1 ++
        [CCall.setNumQueues (if o.hipri then 0 else 1),
         CCall.setNumPollQueues (if o.hipri then 1 else 0), CCall.destroy])
  else if e.startOk = false then
    (1, 1, (fio_blkio_create_and_connect o e.toConnEnv).2.1 ++
        [CCall.setNumQueues (if o.hipri then 0 else 1),
         CCall.setNumPollQueues (if o.hipri then 1 else 0),
         CCall.start false, CCall.destroy])
  else if o.wait_mode = WaitMode.eventfd ∨
      o.force_enable_completion_eventfd = true then
    if e.fcntlGetOk = false then
      (1, 1, (fio_blkio_create_and_connect o e.toConnEnv).2.1 ++
          [CCall.setNumQueues (if o.hipri then 0 else 1),
           CCall.setNumPollQueues (if o.hipri then 1 else 0),
           CCall.start true, CCall.getQueue o.hipri,
           CCall.setCompletionFdEnabled, CCall.fcntlGet false, CCall.destroy])
    else if e.fcntlSetOk = false then
      (1, 1, (fio_blkio_create_and_connect o e.toConnEnv).2.1 ++
          [CCall.setNumQueues (if o.hipri then 0 else 1),
           CCall.setNumPollQueues (if o.hipri then 1 else 0),
           CCall.start true, CCall.getQueue o.hipri,
           CCall.setCompletionFdEnabled, CCall.fcntlGet true,
           CCall.fcntlSet false, CCall.destroy])
    else
      (0, 1, (fio_blkio_create_and_connect o e.toConnEnv).2.1 ++
          [CCall.setNumQueues (if o.hipri then 0 else 1),
           CCall.setNumPollQueues (if o.hipri then 1 else 0),
           CCall.start true, CCall.getQueue o.hipri,
           CCall.setCompletionFdEnabled, CCall.fcntlGet true,
           CCall.fcntlSet true])
  else
    (0, 1, (fio_blkio_create_and_connect o e.toConnEnv).2.1 ++
        [CCall.setNumQueues (if o.hipri then 0 else 1),
         CCall.setNumPollQueues (if o.hipri then 1 else 0),
         CCall.start true, CCall.getQueue o.hipri])

/-- C10: worker initialization sets disable_slat to 1 on every path, for
every configuration and whatever the user had configured (slat0): request
enqueueing is non-blocking, so submission latencies are never reported. -/
theorem init_disables_slat (o : FioBlkioOptions) (e : InitEnv) (slat0 : Nat) :
    (fio_blkio_init o e slat0).2.1 = 1 := by
  unfold fio_blkio_init
  split
  · rfl
  · split
    · rfl
    · split
      · rfl
      · split
        · rfl
        · split
          · rfl
          · split
            · split
              · rfl
              · split
                · rfl
                · rfl
            · rfl

/-- The fio data directions the engine can receive. -/
inductive DDir where
  | DDIR_READ
  | DDIR_WRITE
  | DDIR_TRIM
  | DDIR_SYNC
  | DDIR_DATASYNC
  | DDIR_SYNC_FILE_RANGE
  | DDIR_WAIT
deriving DecidableEq, Repr

/-- The fields of struct io_u that fio_blkio_queue reads or writes. -/
structure IoU where
  ddir : DDir
  index : Nat
  offset : Nat
  xfer_buflen : Nat
  error : Nat
deriving DecidableEq, Repr

/-- The enqueue primitives of a blkioq, with the arguments that identify the
submission; the io_u tag is passed through unchanged by every call. -/
inductive SubmitCall where
  | readv (offset len : Nat)
  | read (offset len : Nat)
  | writev (offset len : Nat)
  | write (offset len : Nat)
  | write_zeroes (offset len : Nat)
  | discard (offset len : Nat)
  | flush
deriving DecidableEq, Repr

/-- The fio queue callback statuses the engine returns. -/
inductive QStatus where
  | FIO_Q_COMPLETED
  | FIO_Q_QUEUED
deriving DecidableEq, Repr

/-- The errno value ENOTSUP on Linux. -/
def ENOTSUP : Nat := 95

/-- Embedding of fio_blkio_queue: dispatch one operation, returning the
engine status, the io_u as left by the call, and the enqueue calls made. -/
def fio_blkio_queue (o : FioBlkioOptions) (u : IoU) :
    QStatus × IoU × List SubmitCall :=
  match u.ddir with
  | DDir.DDIR_READ =>
    if o.vectored then
      (QStatus.FIO_Q_QUEUED, u, [SubmitCall.readv u.offset u.xfer_buflen])
    else
      (QStatus.FIO_Q_QUEUED, u, [SubmitCall.read u.offset u.xfer_buflen])
  | DDir.DDIR_WRITE =>
    if o.vectored then
      (QStatus.FIO_Q_QUEUED, u, [SubmitCall.writev u.offset u.xfer_buflen])
    else
      (QStatus.FIO_Q_QUEUED, u, [SubmitCall.write u.offset u.xfer_buflen])
  | DDir.DDIR_TRIM =>
    if o.write_zeroes_on_trim then
      (QStatus.FIO_Q_QUEUED, u,
       [SubmitCall.write_zeroes u.offset u.xfer_buflen])
    else
      (QStatus.FIO_Q_QUEUED, u, [SubmitCall.discard u.offset u.xfer_buflen])
  | DDir.DDIR_SYNC => (QStatus.FIO_Q_QUEUED, u, [SubmitCall.flush])
  | DDir.DDIR_DATASYNC => (QStatus.FIO_Q_QUEUED, u, [SubmitCall.flush])
  | _ => (QStatus.FIO_Q_COMPLETED, { u with error := ENOTSUP }, [])

/-- C9: an operation whose kind is none of read, write, trim, or
flush/datasync fails synchronously: ENOTSUP is recorded directly on the
operation, the call reports it completed immediately, and no enqueue call
is made to the backend queue, so the operation can never surface among the
completions a reap drains (those arise only from enqueued requests). -/
theorem queue_unsupported_sync_failure (o : FioBlkioOptions) (u : IoU)
    (h : u.ddir ≠ DDir.DDIR_READ ∧ u.ddir ≠ DDir.DDIR_WRITE ∧
         u.ddir ≠ DDir.DDIR_TRIM ∧ u.ddir ≠ DDir.DDIR_SYNC ∧
         u.ddir ≠ DDir.DDIR_DATASYNC) :
    fio_blkio_queue o u =
      (QStatus.FIO_Q_COMPLETED, { u with error := ENOTSUP }, []) := by
  obtain ⟨h1, h2, h3, h4, h5⟩ := h
  unfold fio_blkio_queue
  cases hu : u.ddir <;> simp_all

/-- Witness for C9 at a concrete operation: a DDIR_SYNC_FILE_RANGE request
completes synchronously with ENOTSUP and an empty submission trace. -/
theorem queue_unsupported_sync_failure_witness :
    fio_blkio_queue
        (FioBlkioOptions.mk (some "io_uring") none none
          false false false WaitMode.block false)
        (IoU.mk DDir.DDIR_SYNC_FILE_RANGE 0 4096 512 0) =
      (QStatus.FIO_Q_COMPLETED,
       { IoU.mk DDir.DDIR_SYNC_FILE_RANGE 0 4096 512 0 with error := ENOTSUP },
       []) :=
  queue_unsupported_sync_failure
    (FioBlkioOptions.mk (some "io_uring") none none
      false false false WaitMode.block false)
    (IoU.mk DDir.DDIR_SYNC_FILE_RANGE 0 4096 512 0)
    (by refine ⟨?_, ?_, ?_, ?_, ?_⟩ <;> decide)

/-- Embedding of the align_up macro: round x up to a multiple of y. -/
def align_up (x y : Nat) : Nat := ((x + y - 1) / y) * y

theorem align_up_dvd (x y : Nat) : y ∣ align_up x y :=
  Dvd.intro _ (Nat.mul_comm _ _)

theorem le_align_up (x y : Nat) (hy : 0 < y) : x ≤ align_up x y := by
  unfold align_up
  have h3 : y * ((x + y - 1) / y) + (x + y - 1) % y = x + y - 1 :=
    Nat.div_add_mod _ _
  have h4 : (x + y - 1) % y < y := Nat.mod_lt _ hy
  have h5 : (x + y - 1) / y * y = y * ((x + y - 1) / y) := Nat.mul_comm _ _
  rw [h5]
  generalize hm : y * ((x + y - 1) / y) = m at h3 ⊢
  omega

theorem align_up_min (x y m : Nat) (hy : 0 < y) (hd : y ∣ m) (hx : x ≤ m) :
    align_up x y ≤ m := by
  obtain ⟨p, hp⟩ := hd
  subst hp
  unfold align_up
  have h1 : (x + y - 1) / y ≤ p := by
    rw [Nat.div_le_iff_le_mul_add_pred hy]
    have : x ≤ y * p := hx
    omega
  calc (x + y - 1) / y * y ≤ p * y := Nat.mul_le_mul_right y h1
    _ = y * p := Nat.mul_comm _ _

/-- Backend environment for the memory region manager. -/
structure MemEnv where
  memRegionAlignment : Option Nat
  allocOk : Bool
  mapOk : Bool

/-- Trace entries for the libblkio memory-region calls. -/
inductive MCall where
  | getAlignment
  | allocRegion (len : Nat)
  | mapRegion
  | unmapRegion
  | freeRegion
deriving DecidableEq, Repr

/-- The per-thread memory-region state of struct fio_blkio_data: whether a
self-allocated region is held, and its length when it is. -/
structure MemState where
  has_mem_region : Bool
  regionLen : Nat
deriving DecidableEq, Repr

/-- Embedding of fio_blkio_iomem_alloc: query "mem-region-alignment", round
the requested size up to a multiple of it, allocate a region of the rounded
size and map it, freeing the freshly allocated region when mapping fails. -/
def fio_blkio_iomem_alloc (e : MemEnv) (s : MemState) (size : Nat) :
    Int × MemState × List MCall :=
  match e.memRegionAlignment with
  | none => (1, s, [MCall.getAlignment])
  | some a =>
    if e.allocOk = false then
      (1, s, [MCall.getAlignment, MCall.allocRegion (align_up size a)])
    else if e.mapOk = false then
      (1, s, [MCall.getAlignment, MCall.allocRegion (align_up size a),
              MCall.mapRegion, MCall.freeRegion])
    else
      (0, MemState.mk true (align_up size a),
       [MCall.getAlignment, MCall.allocRegion (align_up size a),
        MCall.mapRegion])

/-- Embedding of fio_blkio_iomem_free: only when a self-allocated region is
held, unmap it, free it and clear the flag; otherwise do nothing. -/
def fio_blkio_iomem_free (s : MemState) : MemState × List MCall :=
  if s.has_mem_region then
    (MemState.mk false s.regionLen, [MCall.unmapRegion, MCall.freeRegion])
  else (s, [])

/-- Backend environment for fio_blkio_post_init. -/
structure PostInitEnv where
  mapOk : Bool

/-- Embedding of fio_blkio_post_init: when the buffer was supplied by the
fio core rather than iomem_alloc (no self-allocated region is held), map it
as an externally owned region; the has_mem_region flag stays false. -/
def fio_blkio_post_init (e : PostInitEnv) (s : MemState) : Int × List MCall :=
  if s.has_mem_region = false then
    if e.mapOk then (0, [MCall.mapRegion]) else (1, [MCall.mapRegion])
  else (0, [])

/-- C5: allocation queries the backend alignment first, every region it
allocates has the least length that is a multiple of the alignment and at
least the requested size, a mapping failure frees the fresh region before
the error returns (the state is unchanged), and after a successful
allocation a release unmaps then frees exactly once (a second release does
nothing). -/
theorem iomem_alloc_correct (e : MemEnv) (s : MemState) (size a : Nat)
    (r : Int) (s2 : MemState) (tr : List MCall)
    (ha : e.memRegionAlignment = some a) (ha0 : 0 < a)
    (hrun : fio_blkio_iomem_alloc e s size = (r, s2, tr)) :
    tr.head? = some MCall.getAlignment
  ∧ (∀ len, MCall.allocRegion len ∈ tr →
      a ∣ len ∧ size ≤ len ∧ ∀ m, a ∣ m → size ≤ m → len ≤ m)
  ∧ (e.allocOk = true → e.mapOk = false →
      r = 1 ∧ tr.getLast? = some MCall.freeRegion ∧ s2 = s)
  ∧ (r = 0 →
      s2 = MemState.mk true (align_up size a)
    ∧ (fio_blkio_iomem_free s2).2 = [MCall.unmapRegion, MCall.freeRegion]
    ∧ (fio_blkio_iomem_free (fio_blkio_iomem_free s2).1).2 = []) := by
  have hlen : ∀ len, len = align_up size a →
      a ∣ len ∧ size ≤ len ∧ ∀ m, a ∣ m → size ≤ m → len ≤ m := by
    intro len hl
    subst hl
    exact ⟨align_up_dvd size a, le_align_up size a ha0,
      fun m hm hsm => align_up_min size a m ha0 hm hsm⟩
  simp only [fio_blkio_iomem_alloc, ha] at hrun
  by_cases h1 : e.allocOk = false
  · rw [if_pos h1] at hrun
    simp only [Prod.mk.injEq] at hrun
    obtain ⟨rfl, rfl, rfl⟩ := hrun
    refine ⟨rfl, ?_, ?_, ?_⟩
    · intro len hlm
      simp at hlm
      exact hlen len hlm
    · intro h2 _
      rw [h1] at h2
      cases h2
    · intro h0
      exact absurd h0 (by decide)
  · rw [if_neg h1] at hrun
    by_cases h2 : e.mapOk = false
    · rw [if_pos h2] at hrun
      simp only [Prod.mk.injEq] at hrun
      obtain ⟨rfl, rfl, rfl⟩ := hrun
      refine ⟨rfl, ?_, ?_, ?_⟩
      · intro len hlm
        simp at hlm
        exact hlen len hlm
      · intro _ _
        exact ⟨rfl, rfl, rfl⟩
      · intro h0
        exact absurd h0 (by decide)
    · rw [if_neg h2] at hrun
      simp only [Prod.mk.injEq] at hrun
      obtain ⟨rfl, rfl, rfl⟩ := hrun
      refine ⟨rfl, ?_, ?_, ?_⟩
      · intro len hlm
        simp at hlm
        exact hlen len hlm
      · intro _ h3
        exact absurd h3 h2
      · intro _
        refine ⟨rfl, ?_, ?_⟩
        · simp [fio_blkio_iomem_free]
        · simp [fio_blkio_iomem_free]

/-- Witness for C5 at a concrete run: alignment 4 and requested size 10
yield a held region of length 12, released by exactly one unmap-free pair,
after which a further release does nothing. -/
theorem iomem_alloc_correct_witness :
    MemState.mk true (align_up 10 4) = MemState.mk true (align_up 10 4)
  ∧ (fio_blkio_iomem_free (MemState.mk true (align_up 10 4))).2 =
      [MCall.unmapRegion, MCall.freeRegion]
  ∧ (fio_blkio_iomem_free
      (fio_blkio_iomem_free (MemState.mk true (align_up 10 4))).1).2 = [] :=
  (iomem_alloc_correct (MemEnv.mk (some 4) true true) (MemState.mk false 0)
    10 4 0 (MemState.mk true (align_up 10 4))
    [MCall.getAlignment, MCall.allocRegion (align_up 10 4), MCall.mapRegion]
    rfl (by decide) (by decide)).2.2.2 (by decide)

/-- Counterexample for C7 as stated: after post_init registers an externally
supplied buffer (the self-allocated flag stays false), a release performs no
backend call at all — in particular it does not unmap/unregister the
region, contrary to the claim that release unmaps it. -/
theorem iomem_free_external_counterexample :
    (fio_blkio_post_init (PostInitEnv.mk true) (MemState.mk false 0)).1 = 0
  ∧ (fio_blkio_iomem_free (MemState.mk false 0)).2 = []
  ∧ MCall.unmapRegion ∉ (fio_blkio_iomem_free (MemState.mk false 0)).2 := by
  refine ⟨rfl, rfl, ?_⟩
  decide

/-- C7 as amended: for an externally supplied region (self-allocated flag
false) release performs no backend call at all — in particular it never
frees caller-owned memory — and release is idempotent: with no
self-allocated region held it is a no-op, and a repeated release makes no
further backend call. -/
theorem iomem_free_external_noop (s : MemState)
    (h : s.has_mem_region = false) :
    fio_blkio_iomem_free s = (s, [])
  ∧ MCall.freeRegion ∉ (fio_blkio_iomem_free s).2
  ∧ (fio_blkio_iomem_free (fio_blkio_iomem_free s).1).2 = [] := by
  simp [fio_blkio_iomem_free, h]

/-- Witness for the amended C7 at the concrete external-registration state. -/
theorem iomem_free_external_noop_witness :
    fio_blkio_iomem_free (MemState.mk false 4096) = (MemState.mk false 4096, [])
  ∧ MCall.freeRegion ∉ (fio_blkio_iomem_free (MemState.mk false 4096)).2
  ∧ (fio_blkio_iomem_free
      (fio_blkio_iomem_free (MemState.mk false 4096)).1).2 = [] :=
  iomem_free_external_noop (MemState.mk false 4096) rfl

/-- Backend environment for the completion reaper: the result of the k-th
blkioq_do_io call of a getevents invocation, and the byte count the k-th
read on the completion fd returns. -/
structure QEnv where
  drainRes : Nat → Int
  readRes : Nat → Int

/-- Trace entries for one getevents invocation: each blkioq_do_io call with
its min and max arguments, its result and the timespec argument it was
passed, and each read on the completion fd with its result. -/
inductive QCall where
  | drain (minArg maxArg res : Int) (timeoutArg : Option Nat)
  | fdRead (res : Int)
deriving DecidableEq, Repr

/-- Sum of the results of the drain calls in a trace. -/
def drainSum : List QCall → Int
  | [] => 0
  | QCall.drain _ _ d _ :: tr => d + drainSum tr
  | QCall.fdRead _ :: tr => drainSum tr

/-- The loop of the eventfd wait mode, after the initial non-blocking
drain: while fewer than mn completions are collected, block on a read of
the completion fd (a byte count other than 8, the size of the event
counter, is fatal), then drain non-blockingly for the remaining capacity.
The accumulated count enters as n; i indexes the environment streams; fuel
bounds the iterations, none meaning the bound was hit. -/
def evAux (e : QEnv) (mn mx : Int) : Nat → Int → Nat → Option (Int × List QCall)
  | 0, n, _ => if n < mn then none else some (n, [])
  | fuel + 1, n, i =>
    if n < mn then
      if e.readRes i = 8 then
        if e.drainRes (i + 1) < 0 then
          some (-1, [QCall.fdRead (e.readRes i),
                     QCall.drain 0 (mx - n) (e.drainRes (i + 1)) none])
        else
          match evAux e mn mx fuel (n + e.drainRes (i + 1)) (i + 1) with
          | none => none
          | some (k, tr) =>
            some (k, QCall.fdRead (e.readRes i) ::
                     QCall.drain 0 (mx - n) (e.drainRes (i + 1)) none :: tr)
      else some (-1, [QCall.fdRead (e.readRes i)])
    else some (n, [])

/-- The loop wait mode: non-blocking drains of the remaining capacity until
at least mn completions have accumulated. -/
def loopAux (e : QEnv) (mn mx : Int) : Nat → Int → Nat → Option (Int × List QCall)
  | 0, n, _ => if n < mn then none else some (n, [])
  | fuel + 1, n, i =>
    if n < mn then
      if e.drainRes i < 0 then
        some (-1, [QCall.drain 0 (mx - n) (e.drainRes i) none])
      else
        match loopAux e mn mx fuel (n + e.drainRes i) (i + 1) with
        | none => none
        | some (k, tr) =>
          some (k, QCall.drain 0 (mx - n) (e.drainRes i) none :: tr)
    else some (n, [])

/-- Embedding of fio_blkio_getevents.  The timespec argument t is what the
harness passed; the C code passes NULL to every blkioq_do_io call, which
the trace records as a none timeout argument.  The result is the returned
count (with -1 for errors) together with the trace, or none when the fuel
bound was hit in one of the waiting loops. -/
def fio_blkio_getevents (wm : WaitMode) (e : QEnv) (mn mx : Nat)
    (t : Option Nat) (fuel : Nat) : Option (Int × List QCall) :=
  match wm with
  | WaitMode.block =>
    some (if e.drainRes 0 < 0 then -1 else e.drainRes 0,
          [QCall.drain (mn : Int) (mx : Int) (e.drainRes 0) none])
  | WaitMode.eventfd =>
    if e.drainRes 0 < 0 then
      some (-1, [QCall.drain 0 (mx : Int) (e.drainRes 0) none])
    else
      match evAux e (mn : Int) (mx : Int) fuel (e.drainRes 0) 0 with
      | none => none
      | some (k, tr) =>
        some (k, QCall.drain 0 (mx : Int) (e.drainRes 0) none :: tr)
  | WaitMode.loop =>
    loopAux e (mn : Int) (mx : Int) fuel 0 0

theorem evAux_spec (e : QEnv) (mn mx : Int) :
    ∀ (fuel : Nat) (n : Int) (i : Nat) (k : Int) (tr : List QCall),
      0 ≤ n →
      evAux e mn mx fuel n i = some (k, tr) →
      (k ≠ -1 → mn ≤ k ∧ k = n + drainSum tr)
    ∧ (∀ a b d ta, QCall.drain a b d ta ∈ tr → a = 0 ∧ ta = none)
    ∧ (∀ r, QCall.fdRead r ∈ tr → r ≠ 8 → k = -1)
    ∧ (∀ t1 a b d ta t2, tr = t1 ++ QCall.drain a b d ta :: t2 →
         b = (mx - n) - drainSum t1) := by
  intro fuel
  induction fuel with
  | zero =>
    intro n i k tr hn h
    simp only [evAux] at h
    split at h
    · exact Option.noConfusion h
    case isFalse hge =>
      simp only [Option.some.injEq, Prod.mk.injEq] at h
      obtain ⟨rfl, rfl⟩ := h
      refine ⟨fun _ => ⟨not_lt.mp hge, by simp [drainSum]⟩, ?_, ?_, ?_⟩
      · intro a b d ta hm
        simp at hm
      · intro r hm
        simp at hm
      · intro t1 a b d ta t2 heq
        exact absurd heq (by simp)
  | succ fuel ih =>
    intro n i k tr hn h
    simp only [evAux] at h
    split at h
    case isFalse hge =>
      simp only [Option.some.injEq, Prod.mk.injEq] at h
      obtain ⟨rfl, rfl⟩ := h
      refine ⟨fun _ => ⟨not_lt.mp hge, by simp [drainSum]⟩, ?_, ?_, ?_⟩
      · intro a b d ta hm
        simp at hm
      · intro r hm
        simp at hm
      · intro t1 a b d ta t2 heq
        exact absurd heq (by simp)
    case isTrue hlt =>
      split at h
      case isFalse hr8 =>
        simp only [Option.some.injEq, Prod.mk.injEq] at h
        obtain ⟨rfl, rfl⟩ := h
        refine ⟨fun hk => absurd rfl hk, ?_, ?_, ?_⟩
        · intro a b d ta hm
          simp at hm
        · intro r hm _
          rfl
        · intro t1 a b d ta t2 heq
          rcases t1 with _ | ⟨x, t1⟩ <;> simp at heq
      case isTrue hr8 =>
        split at h
        case isTrue hd0 =>
          simp only [Option.some.injEq, Prod.mk.injEq] at h
          obtain ⟨rfl, rfl⟩ := h
          refine ⟨fun hk => absurd rfl hk, ?_, ?_, ?_⟩
          · intro a b d ta hm
            rcases List.mem_cons.mp hm with h1 | hm2
            · exact QCall.noConfusion h1
            rcases List.mem_cons.mp hm2 with h1 | hm3
            · obtain ⟨ha, _, _, hta⟩ := (QCall.drain.injEq _ _ _ _ _ _ _ _).mp h1
              exact ⟨ha, hta⟩
            · simp at hm3
          · intro r hm _
            rfl
          · intro t1 a b d ta t2 heq
            rcases t1 with _ | ⟨x, t1⟩
            · rw [List.nil_append] at heq
              injection heq with h1 h2
              exact QCall.noConfusion h1
            rw [List.cons_append] at heq
            injection heq with h1 h2
            subst h1
            rcases t1 with _ | ⟨y, t1⟩
            · rw [List.nil_append] at h2
              injection h2 with h3 h4
              obtain ⟨-, hb, -, -⟩ := (QCall.drain.injEq _ _ _ _ _ _ _ _).mp h3
              simp only [drainSum]
              omega
            · rw [List.cons_append] at h2
              injection h2 with h3 h4
              simp at h4
        case isFalse hd0 =>
          split at h
          · exact Option.noConfusion h
          case h_2 k0 tr0 heq0 =>
            simp only [Option.some.injEq, Prod.mk.injEq] at h
            obtain ⟨rfl, rfl⟩ := h
            have hn2 : (0 : Int) ≤ n + e.drainRes (i + 1) := by
              have := not_lt.mp hd0
              omega
            obtain ⟨hA, hB, hC, hD⟩ := ih (n + e.drainRes (i + 1)) (i + 1)
              k0 tr0 hn2 heq0
            refine ⟨?_, ?_, ?_, ?_⟩
            · intro hk
              obtain ⟨hmn, hsum⟩ := hA hk
              refine ⟨hmn, ?_⟩
              simp only [drainSum]
              omega
            · intro a b d ta hm
              rcases List.mem_cons.mp hm with h1 | hm2
              · exact QCall.noConfusion h1
              rcases List.mem_cons.mp hm2 with h1 | hm3
              · obtain ⟨ha, _, _, hta⟩ :=
                  (QCall.drain.injEq _ _ _ _ _ _ _ _).mp h1
                exact ⟨ha, hta⟩
              · exact hB a b d ta hm3
            · intro r hm hne
              rcases List.mem_cons.mp hm with h1 | hm2
              · injection h1 with hri
                rw [hri] at hne
                exact absurd hr8 hne
              rcases List.mem_cons.mp hm2 with h1 | hm3
              · exact QCall.noConfusion h1
              · exact hC r hm3 hne
            · intro t1 a b d ta t2 heq
              rcases t1 with _ | ⟨x, t1⟩
              · rw [List.nil_append] at heq
                injection heq with h1 h2
                exact QCall.noConfusion h1
              rw [List.cons_append] at heq
              injection heq with h1 h2
              subst h1
              rcases t1 with _ | ⟨y, t1⟩
              · rw [List.nil_append] at h2
                injection h2 with h3 h4
                obtain ⟨-, hb, -, -⟩ :=
                  (QCall.drain.injEq _ _ _ _ _ _ _ _).mp h3
                simp only [drainSum]
                omega
              · rw [List.cons_append] at h2
                injection h2 with h3 h4
                subst h3
                have hb := hD t1 a b d ta t2 h4
                simp only [drainSum]
                omega

/-- Counterexample for C2 as stated: the harness supplies a timeout (here 5
seconds), yet the single blocking drain call is made with a null timespec —
the trace records a none timeout argument and contains no call carrying the
supplied bound, so the call is not bounded by the caller timeout. -/
theorem getevents_block_timeout_counterexample :
    fio_blkio_getevents WaitMode.block
        (QEnv.mk (fun _ => 3) (fun _ => 8)) 1 4 (some 5) 0 =
      some (3, [QCall.drain 1 4 3 none])
  ∧ QCall.drain 1 4 3 (some 5) ∉ [QCall.drain 1 4 3 none] := by
  refine ⟨by decide, by decide⟩

/-- C2 as amended: under the Blocking wait policy, reap performs exactly one
call to the blocking drain primitive requesting between min and max
completions with a null timeout (the caller-supplied timeout is ignored),
and that call's count is the result, a negative count becoming the error
return -1. -/
theorem getevents_block_single_call (e : QEnv) (mn mx : Nat) (t : Option Nat)
    (fuel : Nat) (k : Int) (tr : List QCall)
    (h : fio_blkio_getevents WaitMode.block e mn mx t fuel = some (k, tr)) :
    tr = [QCall.drain (mn : Int) (mx : Int) (e.drainRes 0) none]
  ∧ (0 ≤ e.drainRes 0 → k = e.drainRes 0)
  ∧ (e.drainRes 0 < 0 → k = -1) := by
  simp only [fio_blkio_getevents, Option.some.injEq, Prod.mk.injEq] at h
  obtain ⟨hk, htr⟩ := h
  subst htr
  refine ⟨rfl, ?_, ?_⟩
  · intro h0
    rw [← hk, if_neg (not_lt.mpr h0)]
  · intro h0
    rw [← hk, if_pos h0]

/-- Witness for the amended C2 at a concrete run: the drain returns 3 with
min 2, max 4 requested, and 3 is the reap result. -/
theorem getevents_block_single_call_witness :
    [QCall.drain 2 4 3 none] = [QCall.drain 2 4 3 none]
  ∧ ((0 : Int) ≤ 3 → (3 : Int) = 3)
  ∧ ((3 : Int) < 0 → (3 : Int) = -1) :=
  getevents_block_single_call (QEnv.mk (fun _ => 3) (fun _ => 8)) 2 4 none 0 3
    [QCall.drain 2 4 3 none] (by decide)

/-- C3: under the EventDescriptor wait policy, reap first issues one
non-blocking drain requesting minimum 0 and up to max completions (the
head of the trace); every drain it ever issues is non-blocking (minimum 0,
null timeout); when the call does not fail its result is at least min and
equals the total of the drain results (the completions accumulated); a read
on the notification descriptor returning a byte count other than the
event-token size makes the whole call fail with -1; and every drain
requests exactly the remaining capacity, max minus the completions
collected before it. -/
theorem getevents_eventfd_correct (e : QEnv) (mn mx : Nat) (t : Option Nat)
    (fuel : Nat) (k : Int) (tr : List QCall)
    (h : fio_blkio_getevents WaitMode.eventfd e mn mx t fuel = some (k, tr)) :
    tr.head? = some (QCall.drain 0 (mx : Int) (e.drainRes 0) none)
  ∧ (∀ a b d ta, QCall.drain a b d ta ∈ tr → a = 0 ∧ ta = none)
  ∧ (k ≠ -1 → (mn : Int) ≤ k ∧ k = drainSum tr)
  ∧ (∀ r, QCall.fdRead r ∈ tr → r ≠ 8 → k = -1)
  ∧ (∀ t1 a b d ta t2, tr = t1 ++ QCall.drain a b d ta :: t2 →
       b = (mx : Int) - drainSum t1) := by
  simp only [fio_blkio_getevents] at h
  split at h
  case isTrue hd0 =>
    simp only [Option.some.injEq, Prod.mk.injEq] at h
    obtain ⟨rfl, rfl⟩ := h
    refine ⟨rfl, ?_, fun hk => absurd rfl hk, ?_, ?_⟩
    · intro a b d ta hm
      rcases List.mem_cons.mp hm with h1 | hm2
      · obtain ⟨ha, _, _, hta⟩ := (QCall.drain.injEq _ _ _ _ _ _ _ _).mp h1
        exact ⟨ha, hta⟩
      · simp at hm2
    · intro r hm
      rcases List.mem_cons.mp hm with h1 | hm2
      · exact QCall.noConfusion h1
      · simp at hm2
    · intro t1 a b d ta t2 heq
      rcases t1 with _ | ⟨x, t1⟩
      · rw [List.nil_append] at heq
        injection heq with h1 h2
        obtain ⟨-, hb, -, -⟩ := (QCall.drain.injEq _ _ _ _ _ _ _ _).mp h1
        simp only [drainSum]
        omega
      · rw [List.cons_append] at heq
        injection heq with h1 h2
        simp at h2
  case isFalse hd0 =>
    split at h
    · exact Option.noConfusion h
    case h_2 k0 tr0 heq0 =>
      simp only [Option.some.injEq, Prod.mk.injEq] at h
      obtain ⟨rfl, rfl⟩ := h
      obtain ⟨hA, hB, hC, hD⟩ := evAux_spec e (mn : Int) (mx : Int) fuel
        (e.drainRes 0) 0 k0 tr0 (not_lt.mp hd0) heq0
      refine ⟨rfl, ?_, ?_, ?_, ?_⟩
      · intro a b d ta hm
        rcases List.mem_cons.mp hm with h1 | hm2
        · obtain ⟨ha, _, _, hta⟩ := (QCall.drain.injEq _ _ _ _ _ _ _ _).mp h1
          exact ⟨ha, hta⟩
        · exact hB a b d ta hm2
      · intro hk
        obtain ⟨hmn, hsum⟩ := hA hk
        refine ⟨hmn, ?_⟩
        simp only [drainSum]
        omega
      · intro r hm hne
        rcases List.mem_cons.mp hm with h1 | hm2
        · exact QCall.noConfusion h1
        · exact hC r hm2 hne
      · intro t1 a b d ta t2 heq
        rcases t1 with _ | ⟨x, t1⟩
        · rw [List.nil_append] at heq
          injection heq with h1 h2
          obtain ⟨-, hb, -, -⟩ := (QCall.drain.injEq _ _ _ _ _ _ _ _).mp h1
          simp only [drainSum]
          omega
        · rw [List.cons_append] at heq
          injection heq with h1 h2
          subst h1
          have hb := hD t1 a b d ta t2 h2
          simp only [drainSum]
          omega

/-- Witness for C3 at a concrete run: min 2, max 3, first drain yields 1,
one wait cycle (a well-formed 8-byte read, then a drain of the remaining
capacity 2 yielding 1) reaches the minimum; the result 2 is at least min
and is the total drained. -/
theorem getevents_eventfd_correct_witness :
    (2 : Int) ≤ 2 ∧ (2 : Int) = drainSum
      [QCall.drain 0 3 1 none, QCall.fdRead 8, QCall.drain 0 2 1 none] :=
  (getevents_eventfd_correct (QEnv.mk (fun _ => 1) (fun _ => 8)) 2 3 none 5 2
    [QCall.drain 0 3 1 none, QCall.fdRead 8, QCall.drain 0 2 1 none]
    (by decide)).2.2.1 (by decide)
